import Mathlib

/-!
Verification of the Approximate Convex Decomposition engine (`src/ACD.py`).

Shallow embedding conventions:

* A `Point` is a pair of rationals, mirroring the `(x, y)` coordinate tuples of
  the source; a `Polygon` is the list of its vertices.
* The two transcendental numeric primitives of the source are abstracted as
  explicit function parameters, so that every definition stays computable and
  every theorem states exactly which properties of the primitives it uses:
  - `ata : ℚ → ℚ → ℚ` stands for `np.arctan2(y, x) * 180 / np.pi`
    (its real counterpart has range `(-180, 180]`);
  - `sqt : ℚ → ℚ` stands for `(·) ** 0.5` applied to the sum of squares in
    `get_dist` (its real counterpart is nonnegative and strictly monotone on
    nonnegative inputs).
* Python runtime errors (`NameError` / `IndexError` / `KeyError` / `ValueError`
  from failed lookups, and the `TypeError` raised in `ACD` when `resolve`
  returns `None`) abort the whole computation; they are modeled with `Except`.
  The unbounded `while` loop of `convex_hull` and the recursion of `ACD` get
  explicit fuel; exhausted fuel is a distinguished error.
* Python dictionaries (insertion ordered, value-keyed) are modeled as
  association lists with in-place overwrite.
-/

abbrev Point : Type := ℚ × ℚ

abbrev Polygon : Type := List Point

/-- Errors of the embedded computation. `crash` models any Python exception
raised by a failed lookup (`NameError`, `IndexError`, `KeyError`,
`ValueError`); `decompositionFailure` models the `TypeError` raised in `ACD`
when `resolve` returns `None` (the spec's `DecompositionFailure`); `hullFuel`
and `recFuel` model nontermination of the hull loop and of the recursion. -/
inductive ACDError : Type
  | crash : ACDError
  | decompositionFailure : ACDError
  | hullFuel : ACDError
  | recFuel : ACDError
deriving DecidableEq, Repr

/-- Equality of embedded computation results is decidable, so concrete runs
can be checked by evaluation. -/
instance exceptDecEq {ε α : Type} [DecidableEq ε] [DecidableEq α] :
    DecidableEq (Except ε α) := fun a b =>
  match a, b with
  | .error e, .error f =>
    if h : e = f then .isTrue (by rw [h])
    else .isFalse (by intro hh; cases hh; exact h rfl)
  | .error _, .ok _ => .isFalse (by intro hh; cases hh)
  | .ok _, .error _ => .isFalse (by intro hh; cases hh)
  | .ok x, .ok y =>
    if h : x = y then .isTrue (by rw [h])
    else .isFalse (by intro hh; cases hh; exact h rfl)

/-- Python list indexing `l[i]` including negative-index wraparound:
`l[-k]` is `l[len l - k]` for `1 ≤ k ≤ len l`; anything else raises. -/
def pyGet (l : List Point) (i : Int) : Option Point :=
  if 0 ≤ i then l.get? i.toNat
  else if (-i) ≤ (l.length : Int) then l.get? (l.length - (-i).toNat) else none

/-- Embeds `get_dist` (ACD.py line 266): Euclidean distance
`((x1-x2)**2 + (y1-y2)**2)**0.5`, with `sqt` standing for `**0.5`. -/
def get_dist (sqt : ℚ → ℚ) (a b : Point) : ℚ :=
  sqt ((a.1 - b.1) ^ 2 + (a.2 - b.2) ^ 2)

/-- Embeds `get_adj_angle` (ACD.py lines 204-234): clockwise adjustment angle from
`heading` to the compass bearing of `np - pp`, where `ata` stands for
`np.arctan2(·,·) * 180 / np.pi`. -/
def get_adj_angle (ata : ℚ → ℚ → ℚ) (heading : ℚ) (pp np : Point) : ℚ :=
  let rel0 : ℚ := ata (np.2 - pp.2) (np.1 - pp.1)
  let rel1 : ℚ := if rel0 < 0 then -rel0 else 360 - rel0
  let rel2 : ℚ := if rel1 < 270 then rel1 + 90 else rel1 - 270
  let adj : ℚ := rel2 - heading
  if adj < 0 then adj + 360 else adj

/-- Embeds `get_interior_angle` (ACD.py lines 238-261): recomputes the compass
heading from `prev` to `r`, then returns `180 - get_adj_angle(heading, r, next)`;
a negative result signals a reflex interior angle at `r`. -/
def get_interior_angle (ata : ℚ → ℚ → ℚ) (prev r next : Point) : ℚ :=
  let h0 : ℚ := ata (r.2 - prev.2) (r.1 - prev.1)
  let h1 : ℚ := if h0 < 0 then -h0 else 360 - h0
  let h2 : ℚ := if h1 < 270 then h1 + 90 else h1 - 270
  180 - get_adj_angle ata h2 r next

/-- The candidate scan of one `while` iteration of `convex_hull`
(ACD.py lines 177-188).  State is `(current_adj, current_point, current_dist)`
initialized to `(360, unbound, 0)`; a candidate equal to `previous_point` is
skipped; a candidate is taken if its adjustment angle is strictly smaller, or
equal with a strictly smaller distance. -/
def hullScan (ata : ℚ → ℚ → ℚ) (sqt : ℚ → ℚ) (heading : ℚ) (prev : Point) :
    List Point → ℚ × Option Point × ℚ → ℚ × Option Point × ℚ
  | [], st => st
  | np :: rest, (ca, cp, cd) =>
    if np ≠ prev then
      if get_adj_angle ata heading prev np < ca ∨
          (get_adj_angle ata heading prev np = ca ∧ get_dist sqt prev np < cd) then
        hullScan ata sqt heading prev rest
          (get_adj_angle ata heading prev np, some np, get_dist sqt prev np)
      else
        hullScan ata sqt heading prev rest (ca, cp, cd)
    else
      hullScan ata sqt heading prev rest (ca, cp, cd)

/-- The `while not(hull_complete)` loop of `convex_hull` (ACD.py lines
172-198), with explicit fuel.  If the scan bound no candidate, the final read
of `current_point` raises (`crash`); if the selected point is the starting
left point the hull is complete; otherwise the point is appended, the heading
is advanced by the selected adjustment, and the loop repeats. -/
def hullLoop (ata : ℚ → ℚ → ℚ) (sqt : ℚ → ℚ) (p : List Point) (left : Point) :
    Nat → List Point → Point → ℚ → Except ACDError (List Point)
  | 0, _, _, _ => .error .hullFuel
  | fuel + 1, hl, prev, heading =>
    match hullScan ata sqt heading prev p (360, none, 0) with
    | (_, none, _) => .error .crash
    | (ca, some cp, _) =>
      if cp = left then .ok hl
      else hullLoop ata sqt p left fuel (hl ++ [cp]) cp (heading + ca)

/-- Embeds `np.argmin([x for (x,y) in p])` followed by `p[...]` (ACD.py lines
163-164): the first point of minimum x-coordinate; raises on an empty list. -/
def argminX : List Point → Option Point
  | [] => none
  | q :: rest => some (rest.foldl (fun best cand => if cand.1 < best.1 then cand else best) q)

/-- Embeds `convex_hull` (ACD.py lines 157-200): gift wrapping from the leftmost
point with initial heading 0 and initial hull list `[left_point]`. -/
def convex_hull (ata : ℚ → ℚ → ℚ) (sqt : ℚ → ℚ) (hf : Nat) (p : List Point) :
    Except ACDError (List Point) :=
  match argminX p with
  | none => .error .crash
  | some lp => hullLoop ata sqt p lp hf [lp] lp 0

/-- Python dict assignment `d[k] = v`: overwrite in place if the key is
present, else append (insertion order preserved). -/
def dictInsert (k : Point) (v : ℚ) : List (Point × ℚ) → List (Point × ℚ)
  | [] => [(k, v)]
  | (k', v') :: rest =>
    if k' = k then (k, v) :: rest else (k', v') :: dictInsert k v rest

/-- Python dict read `d[k]`; `none` models `KeyError`. -/
def dictGet (k : Point) : List (Point × ℚ) → Option ℚ
  | [] => none
  | (k', v') :: rest => if k' = k then some v' else dictGet k rest

/-- Python `max` over a list; `none` models `ValueError` on an empty list. -/
def listMax : List ℚ → Option ℚ
  | [] => none
  | v :: rest => some (rest.foldl max v)

/-- The bridge-cursor walk of `concavity` (ACD.py lines 47-55).  State is
`(point_dict, left_bridge_index, right_bridge_index)` starting at
`({}, -1, 0)`.  A point on the hull gets score 0 and advances both cursors,
the right cursor being reset to 0 when it reaches `len(hull) - 1`; any other
point gets the minimum of its distances to the two bridge points. -/
def concWalk (sqt : ℚ → ℚ) (hull : List Point) :
    List Point → List (Point × ℚ) × Int × Nat →
    Except ACDError (List (Point × ℚ) × Int × Nat)
  | [], st => .ok st
  | pt :: rest, (dict, l, r) =>
    if pt ∈ hull then
      concWalk sqt hull rest
        (dictInsert pt 0 dict, l + 1, if r + 1 = hull.length - 1 then 0 else r + 1)
    else
      match pyGet hull l, hull.get? r with
      | some lb, some rb =>
        concWalk sqt hull rest
          (dictInsert pt (min (get_dist sqt pt lb) (get_dist sqt pt rb)) dict, l, r)
      | _, _ => .error .crash

/-- The notch scan of `concavity` (ACD.py lines 59-61): the last point of `p`
whose dictionary entry equals the maximum concavity; an unbound `notch`
(no match) or a missing key raises. -/
def notchScan (dict : List (Point × ℚ)) (mc : ℚ) :
    List Point → Option Point → Except ACDError (Option Point)
  | [], acc => .ok acc
  | pt :: rest, acc =>
    match dictGet pt dict with
    | none => .error .crash
    | some v => notchScan dict mc rest (if v = mc then some pt else acc)

/-- Embeds `concavity` (ACD.py lines 36-63): convex hull, bridge-cursor walk,
maximum of the dictionary values, and notch selection.  Returns the notch and
the concavity dictionary. -/
def concavity (ata : ℚ → ℚ → ℚ) (sqt : ℚ → ℚ) (hf : Nat) (p : Polygon) :
    Except ACDError (Point × List (Point × ℚ)) :=
  match convex_hull ata sqt hf p with
  | .error e => .error e
  | .ok hull =>
    match concWalk sqt hull p ([], -1, 0) with
    | .error e => .error e
    | .ok st =>
      match listMax (st.1.map Prod.snd) with
      | none => .error .crash
      | some mc =>
        match notchScan st.1 mc p none with
        | .error e => .error e
        | .ok none => .error .crash
        | .ok (some r) => .ok (r, st.1)

/-- The index scan of `get_resolved_polygons` (ACD.py lines 95-99): the last
index holding `best_point`, and the last index holding `r` among positions not
holding `best_point` (the `elif`). -/
def grpIndices (p : Polygon) (bp r : Point) : Option Nat × Option Nat :=
  p.enum.foldl
    (fun acc iv =>
      if iv.2 = bp then (some iv.1, acc.2)
      else if iv.2 = r then (acc.1, some iv.1)
      else acc)
    (none, none)

/-- Embeds `get_resolved_polygons` (ACD.py lines 93-119).  With `jmin` and `jmax` the
two diagonal indices in order, the index loop of lines 105-117 yields
`polygon1 = p[0..jmin] ++ p[jmax..]` (the branches `i < jmin`, `i = jmin`,
`i = jmax`, `i > jmax`) and `polygon2 = p[jmin..jmax]` (the branches
`i = jmin`, `jmin < i < jmax`, `i = jmax`), both inclusive of both diagonal
endpoints.  An unbound index (point not found) raises. -/
def get_resolved_polygons (p : Polygon) (r bp : Point) :
    Except ACDError (Polygon × Polygon) :=
  match grpIndices p bp r with
  | (some i1, some i2) =>
    let jmin : Nat := min i1 i2
    let jmax : Nat := max i1 i2
    .ok (p.take (jmin + 1) ++ p.drop jmax, (p.drop jmin).take (jmax - jmin + 1))
  | _ => .error .crash

/-- The notch-index scan of `valid_resolve` (ACD.py lines 134-136): the last
index of `polygon` holding `r`; an unbound `index_r` raises. -/
def notchIndex (r : Point) (q : Polygon) : Option Nat :=
  q.enum.foldl (fun acc iv => if iv.2 = r then some iv.1 else acc) none

/-- The per-polygon body of `valid_resolve` (ACD.py lines 134-146): locate the
notch, take `pre_index = index_r - 1` (Python negative indexing wraps to the
last element when `index_r = 0`) and `post_index` wrapping to 0 at the end,
and return the interior angle at the notch. -/
def interiorAtNotch (ata : ℚ → ℚ → ℚ) (r : Point) (q : Polygon) :
    Except ACDError ℚ :=
  match notchIndex r q with
  | none => .error .crash
  | some ir =>
    match pyGet q ((ir : Int) - 1), q.get? ir,
        q.get? (if ir = q.length - 1 then 0 else ir + 1) with
    | some a, some b, some c => .ok (get_interior_angle ata a b c)
    | _, _, _ => .error .crash

/-- Embeds `valid_resolve` (ACD.py lines 123-153): reject if either polygon has fewer
than 3 vertices; otherwise both interior angles at the notch must be
nonnegative, the first polygon being checked first (the loop `break`s at the
first negative angle, so the second polygon is not examined then). -/
def valid_resolve (ata : ℚ → ℚ → ℚ) (polys : Polygon × Polygon) (r : Point) :
    Except ACDError Bool :=
  if min polys.1.length polys.2.length < 3 then .ok false
  else
    match interiorAtNotch ata r polys.1 with
    | .error e => .error e
    | .ok a1 =>
      if a1 < 0 then .ok false
      else
        match interiorAtNotch ata r polys.2 with
        | .error e => .error e
        | .ok a2 => .ok (decide (0 ≤ a2))

/-- The candidate loop of `resolve` (ACD.py lines 77-87).  State is
`(best_score, best_polygons)` starting at `(0, None)`.  For each point other
than `r`, the score `(1 + 0.1 * point_dict[point]) / (1.0 + get_dist(point, r))`
is computed; only if it strictly exceeds the best score so far is the split
built and validated, and only a valid split is recorded. -/
def resolveLoop (ata : ℚ → ℚ → ℚ) (sqt : ℚ → ℚ) (dict : List (Point × ℚ))
    (p : Polygon) (r : Point) :
    List Point → ℚ → Option (Polygon × Polygon) →
    Except ACDError (Option (Polygon × Polygon))
  | [], _, best => .ok best
  | pt :: rest, bs, best =>
    if pt ≠ r then
      match dictGet pt dict with
      | none => .error .crash
      | some cv =>
        if bs < (1 + (1 / 10) * cv) / (1 + get_dist sqt pt r) then
          match get_resolved_polygons p r pt with
          | .error e => .error e
          | .ok polys =>
            match valid_resolve ata polys r with
            | .error e => .error e
            | .ok true =>
              resolveLoop ata sqt dict p r rest
                ((1 + (1 / 10) * cv) / (1 + get_dist sqt pt r)) (some polys)
            | .ok false => resolveLoop ata sqt dict p r rest bs best
        else resolveLoop ata sqt dict p r rest bs best
    else resolveLoop ata sqt dict p r rest bs best

/-- Embeds `resolve` (ACD.py lines 68-89): returns the polygons of the best-scoring
valid diagonal, or `none` (Python `None`) if no candidate produced a valid
split. -/
def resolve (ata : ℚ → ℚ → ℚ) (sqt : ℚ → ℚ) (dict : List (Point × ℚ))
    (p : Polygon) (r : Point) : Except ACDError (Option (Polygon × Polygon)) :=
  resolveLoop ata sqt dict p r p 0 none

/-- Embeds `ACD` (ACD.py lines 14-32): compute the notch and its concavity; below
tolerance return `[p]`; otherwise resolve the notch (a `None` result makes the
iteration `for polygon in polygons` raise, modeled as `decompositionFailure`)
and recurse on both sub-polygons in order, concatenating the results. -/
def ACD (ata : ℚ → ℚ → ℚ) (sqt : ℚ → ℚ) :
    Nat → Nat → Polygon → ℚ → Except ACDError (List Polygon)
  | 0, _, _, _ => .error .recFuel
  | rf + 1, hf, p, tau =>
    match concavity ata sqt hf p with
    | .error e => .error e
    | .ok (r, dict) =>
      match dictGet r dict with
      | none => .error .crash
      | some c =>
        if c < tau then .ok [p]
        else
          match resolve ata sqt dict p r with
          | .error e => .error e
          | .ok none => .error .decompositionFailure
          | .ok (some (p1, p2)) =>
            match ACD ata sqt rf hf p1 tau with
            | .error e => .error e
            | .ok l1 =>
              match ACD ata sqt rf hf p2 tau with
              | .error e => .error e
              | .ok l2 => .ok (l1 ++ l2)

/-- The bridge-cursor walk as the specification describes it, with the wrap
point of the right cursor abstracted: on a hull vertex the right cursor
becomes `(right + 1) % msel (hull.length)`.  `msel = id` is the spec's
"wraps modulo the hull length"; `msel n = n - 1` is the wrap the code
actually performs. -/
def concWalkW (sqt : ℚ → ℚ) (m : Nat) (hull : List Point) :
    List Point → List (Point × ℚ) × Int × Nat →
    Except ACDError (List (Point × ℚ) × Int × Nat)
  | [], st => .ok st
  | pt :: rest, (dict, l, r) =>
    if pt ∈ hull then
      concWalkW sqt m hull rest (dictInsert pt 0 dict, l + 1, (r + 1) % m)
    else
      match pyGet hull l, hull.get? r with
      | some lb, some rb =>
        concWalkW sqt m hull rest
          (dictInsert pt (min (get_dist sqt pt lb) (get_dist sqt pt rb)) dict, l, r)
      | _, _ => .error .crash

/-- Variant of `concavity` with the right-cursor wrap modulus selected by `msel` from the
hull length; otherwise identical to `concavity`. -/
def concavityW (msel : Nat → Nat) (ata : ℚ → ℚ → ℚ) (sqt : ℚ → ℚ) (hf : Nat)
    (p : Polygon) : Except ACDError (Point × List (Point × ℚ)) :=
  match convex_hull ata sqt hf p with
  | .error e => .error e
  | .ok hull =>
    match concWalkW sqt (msel hull.length) hull p ([], -1, 0) with
    | .error e => .error e
    | .ok st =>
      match listMax (st.1.map Prod.snd) with
      | none => .error .crash
      | some mc =>
        match notchScan st.1 mc p none with
        | .error e => .error e
        | .ok none => .error .crash
        | .ok (some r) => .ok (r, st.1)

/-- Concrete stand-in for `np.arctan2(y, x) * 180 / np.pi`, exact on the eight
axis and diagonal directions (the only directions occurring in the concrete
polygons below) and defaulting to 179 elsewhere; its values always lie in the
range `(-180, 180]` of the real function. -/
def ataOct (y x : ℚ) : ℚ :=
  if 0 < x ∧ y = 0 then 0
  else if 0 < x ∧ y = x then 45
  else if x = 0 ∧ 0 < y then 90
  else if x < 0 ∧ y = -x then 135
  else if x < 0 ∧ y = 0 then 180
  else if x < 0 ∧ y = x then -135
  else if x = 0 ∧ y < 0 then -90
  else if 0 < x ∧ y = -x then -45
  else 179

/-- Concrete stand-in for `(·) ** 0.5`: the identity, which is nonnegative and
strictly monotone on the nonnegative arguments `get_dist` feeds it, so every
comparison of distances below has the same outcome as with the real square
root (the reported magnitudes are squared distances). -/
def sqtId (q : ℚ) : ℚ := q

/-- The perfect square of the specification's concrete scenario 2. -/
def Psq : Polygon := [(0, 0), (4, 0), (4, 4), (0, 4)]

/-- A clockwise square with its center as an interior point: a polygon on
which the decomposition succeeds with one diagonal split. -/
def Pcw : Polygon := [(0, 0), (0, 8), (8, 8), (4, 4), (8, 0)]

/-- The same vertex set in counter-clockwise order: every candidate diagonal
from the notch `(4,4)` is rejected, so `resolve` finds no valid split. -/
def Pccw : Polygon := [(0, 0), (8, 0), (8, 8), (4, 4), (0, 8)]

/-- A square with an off-center interior notch `(2,2)`, on which the code's
right-cursor wrap at `len(hull) - 1` gives a different concavity value than a
wrap modulo `len(hull)` would. -/
def Pn2 : Polygon := [(0, 0), (8, 0), (8, 8), (2, 2), (0, 8)]

/-- The polygons reached from `p` by the recursion of `ACD` at tolerance
`tau`: `p` itself, and recursively anything reached from either sub-polygon
produced by a successful notch resolution of a reached polygon whose maximum
concavity is not below tolerance. -/
inductive Reaches (ata : ℚ → ℚ → ℚ) (sqt : ℚ → ℚ) (hf : Nat) (tau : ℚ) :
    Polygon → Polygon → Prop
  | refl (p : Polygon) : Reaches ata sqt hf tau p p
  | left {p r dict c p1 p2 q} :
      concavity ata sqt hf p = .ok (r, dict) → dictGet r dict = some c →
      ¬ c < tau → resolve ata sqt dict p r = .ok (some (p1, p2)) →
      Reaches ata sqt hf tau p1 q → Reaches ata sqt hf tau p q
  | right {p r dict c p1 p2 q} :
      concavity ata sqt hf p = .ok (r, dict) → dictGet r dict = some c →
      ¬ c < tau → resolve ata sqt dict p r = .ok (some (p1, p2)) →
      Reaches ata sqt hf tau p2 q → Reaches ata sqt hf tau p q

theorem dictGet_dictInsert_self (k : Point) (v : ℚ) (d : List (Point × ℚ)) :
    dictGet k (dictInsert k v d) = some v := by
  induction d with
  | nil => simp [dictInsert, dictGet]
  | cons kv rest ih =>
    obtain ⟨a, b⟩ := kv
    by_cases h : a = k
    · simp [dictInsert, dictGet, h]
    · simp [dictInsert, dictGet, h, ih]

theorem dictGet_dictInsert_ne (k k' : Point) (v : ℚ) (d : List (Point × ℚ))
    (h : k' ≠ k) : dictGet k' (dictInsert k v d) = dictGet k' d := by
  induction d with
  | nil => simp [dictInsert, dictGet, h, Ne.symm h]
  | cons kv rest ih =>
    obtain ⟨a, b⟩ := kv
    by_cases hk : a = k
    · subst hk
      simp [dictInsert, dictGet, h, Ne.symm h]
    · by_cases hk' : a = k'
      · subst hk'
        simp [dictInsert, dictGet, hk]
      · simp [dictInsert, dictGet, hk, hk', ih]

theorem dictGet_mem {k : Point} {v : ℚ} :
    ∀ {d : List (Point × ℚ)}, dictGet k d = some v → (k, v) ∈ d := by
  intro d
  induction d with
  | nil => intro h; simp [dictGet] at h
  | cons kv rest ih =>
    obtain ⟨a, b⟩ := kv
    intro h
    by_cases hk : a = k
    · rw [dictGet, if_pos hk] at h
      subst hk
      obtain rfl : b = v := Option.some.inj h
      exact List.mem_cons_self _ _
    · rw [dictGet, if_neg hk] at h
      exact List.mem_cons_of_mem _ (ih h)

theorem le_foldl_max (l : List ℚ) : ∀ a : ℚ, a ≤ l.foldl max a := by
  induction l with
  | nil => intro a; simp
  | cons h rest ih =>
    intro a
    exact le_trans (le_max_left a h) (ih (max a h))

theorem mem_le_foldl_max {v : ℚ} :
    ∀ {l : List ℚ} (a : ℚ), v ∈ l → v ≤ l.foldl max a := by
  intro l
  induction l with
  | nil => intro a h; simp at h
  | cons h rest ih =>
    intro a hm
    rcases List.mem_cons.mp hm with rfl | hm
    · exact le_trans (le_max_right a v) (le_foldl_max rest (max a v))
    · exact ih (max a h) hm

theorem listMax_is_ub {l : List ℚ} {m : ℚ} (h : listMax l = some m) :
    ∀ v ∈ l, v ≤ m := by
  match l with
  | [] => simp [listMax] at h
  | a :: rest =>
    rw [listMax] at h
    obtain rfl : rest.foldl max a = m := Option.some.inj h
    intro v hv
    rcases List.mem_cons.mp hv with rfl | hv
    · exact le_foldl_max rest v
    · exact mem_le_foldl_max a hv

theorem notchScan_ok_some {dict : List (Point × ℚ)} {mc : ℚ} :
    ∀ {ps : List Point} {acc : Option Point} {r : Point},
      notchScan dict mc ps acc = .ok (some r) →
      (∀ x, acc = some x → dictGet x dict = some mc) →
      dictGet r dict = some mc := by
  intro ps
  induction ps with
  | nil =>
    intro acc r h hacc
    rw [notchScan] at h
    exact hacc r (Except.ok.inj h)
  | cons pt rest ih =>
    intro acc r h hacc
    rw [notchScan] at h
    match hg : dictGet pt dict with
    | none => rw [hg] at h; exact absurd h (by simp)
    | some v =>
      rw [hg] at h
      simp only [] at h
      by_cases hv : v = mc
      · rw [if_pos hv] at h
        refine ih h ?_
        intro x hx
        obtain rfl : pt = x := Option.some.inj hx
        rw [hg, hv]
      · rw [if_neg hv] at h
        exact ih h hacc

theorem concavity_ok_max {ata : ℚ → ℚ → ℚ} {sqt : ℚ → ℚ} {hf : Nat}
    {p : Polygon} {r : Point} {dict : List (Point × ℚ)}
    (h : concavity ata sqt hf p = .ok (r, dict)) :
    ∃ mc, dictGet r dict = some mc ∧ ∀ k v, dictGet k dict = some v → v ≤ mc := by
  rw [concavity] at h
  split at h
  · exact absurd h (by simp)
  next hull hhull =>
    split at h
    · exact absurd h (by simp)
    next st hwalk =>
      split at h
      · exact absurd h (by simp)
      next mc hmax =>
        split at h
        · exact absurd h (by simp)
        · exact absurd h (by simp)
        next r0 hscan =>
          obtain ⟨h1, h2⟩ := Prod.mk.inj (Except.ok.inj h)
          subst h1
          subst h2
          refine ⟨mc, notchScan_ok_some hscan (by simp), ?_⟩
          intro k v hkv
          exact listMax_is_ub hmax v (List.mem_map_of_mem Prod.snd (dictGet_mem hkv))

/-- C1. For every polygon `p` and tolerance `tau`, if `ACD(p, tau)` returns a
list normally, then for every polygon `q` in that list `concavity(q)` succeeds
and the concavity of its notch — which bounds every concavity score of `q` —
is strictly less than `tau`. -/
theorem acd_tolerance_satisfaction (ata : ℚ → ℚ → ℚ) (sqt : ℚ → ℚ) :
    ∀ (rf hf : Nat) (p : Polygon) (tau : ℚ) (L : List Polygon),
      ACD ata sqt rf hf p tau = .ok L →
      ∀ q ∈ L, ∃ r dict c, concavity ata sqt hf q = .ok (r, dict) ∧
        dictGet r dict = some c ∧ c < tau ∧
        ∀ pt v, dictGet pt dict = some v → v < tau := by
  intro rf
  induction rf with
  | zero =>
    intro hf p tau L h
    rw [ACD] at h
    exact absurd h (by simp)
  | succ n ih =>
    intro hf p tau L h
    rw [ACD] at h
    split at h
    · exact absurd h (by simp)
    next r dict hconc =>
      split at h
      · exact absurd h (by simp)
      next c hget =>
        split at h
        next hlt =>
          obtain rfl : [p] = L := Except.ok.inj h
          intro q hq
          obtain rfl : q = p := List.mem_singleton.mp hq
          obtain ⟨mc, hrmc, hub⟩ := concavity_ok_max hconc
          obtain rfl : c = mc := Option.some.inj (hget ▸ hrmc)
          exact ⟨r, dict, c, hconc, hget, hlt, fun pt v hv =>
            lt_of_le_of_lt (hub pt v hv) hlt⟩
        next hge =>
          split at h
          · exact absurd h (by simp)
          · exact absurd h (by simp)
          next p1 p2 hres =>
            split at h
            · exact absurd h (by simp)
            next l1 h1 =>
              split at h
              · exact absurd h (by simp)
              next l2 h2 =>
                obtain rfl : l1 ++ l2 = L := Except.ok.inj h
                intro q hq
                rcases List.mem_append.mp hq with hq | hq
                · exact ih hf p1 tau l1 h1 q hq
                · exact ih hf p2 tau l2 h2 q hq

/-- Witness for C1 at the concrete clockwise polygon `Pcw` with tolerance 1:
both returned pieces have every concavity score below tolerance. -/
theorem acd_tolerance_satisfaction_witness :
    ∃ r dict c,
      concavity ataOct sqtId 20 [(0, 0), (4, 4), (8, 0)] = .ok (r, dict) ∧
        dictGet r dict = some c ∧ c < 1 ∧
        ∀ pt v, dictGet pt dict = some v → v < 1 :=
  acd_tolerance_satisfaction ataOct sqtId 5 20 Pcw 1 _ (by with_unfolding_all rfl)
    [(0, 0), (4, 4), (8, 0)] (List.mem_cons_self _ _)

theorem grpIndices_spec {p : Polygon} {bp r : Point} {i1 i2 : Nat}
    (h : grpIndices p bp r = (some i1, some i2)) :
    p[i1]? = some bp ∧ p[i2]? = some r ∧ r ≠ bp := by
  have key : ∀ (l : List (Nat × Point)), (∀ iv ∈ l, p[iv.1]? = some iv.2) →
      ∀ acc : Option Nat × Option Nat,
      (∀ j, acc.1 = some j → p[j]? = some bp) →
      (∀ j, acc.2 = some j → p[j]? = some r ∧ r ≠ bp) →
      ∀ j1 j2,
        l.foldl (fun acc iv =>
          if iv.2 = bp then (some iv.1, acc.2)
          else if iv.2 = r then (acc.1, some iv.1)
          else acc) acc = (some j1, some j2) →
        p[j1]? = some bp ∧ (p[j2]? = some r ∧ r ≠ bp) := by
    intro l
    induction l with
    | nil =>
      intro _ acc h1 h2 j1 j2 hf
      rw [List.foldl_nil] at hf
      exact ⟨h1 j1 (by rw [hf]), h2 j2 (by rw [hf])⟩
    | cons iv rest ih =>
      intro hl acc h1 h2 j1 j2 hf
      rw [List.foldl_cons] at hf
      have hiv : p[iv.1]? = some iv.2 := hl iv (List.mem_cons_self _ _)
      have hrest : ∀ jv ∈ rest, p[jv.1]? = some jv.2 :=
        fun jv hj => hl jv (List.mem_cons_of_mem _ hj)
      by_cases hb : iv.2 = bp
      · rw [if_pos hb] at hf
        refine ih hrest _ ?_ ?_ j1 j2 hf
        · intro j hj
          obtain rfl : iv.1 = j := Option.some.inj hj
          rw [hiv, hb]
        · exact h2
      · by_cases hr : iv.2 = r
        · rw [if_neg hb, if_pos hr] at hf
          refine ih hrest _ ?_ ?_ j1 j2 hf
          · exact h1
          · intro j hj
            obtain rfl : iv.1 = j := Option.some.inj hj
            rw [hiv, hr]
            exact ⟨rfl, fun hc => hb (hr.trans hc)⟩
        · rw [if_neg hb, if_neg hr] at hf
          exact ih hrest _ h1 h2 j1 j2 hf
  rw [grpIndices] at h
  exact key p.enum (fun iv hiv => List.mem_enum_iff_getElem?.mp hiv) (none, none)
    (by simp) (by simp) i1 i2 h

theorem get_resolved_polygons_shape {p q1 q2 : Polygon} {r bp : Point}
    (h : get_resolved_polygons p r bp = .ok (q1, q2)) :
    ∃ i1 i2, p[i1]? = some bp ∧ p[i2]? = some r ∧ i1 ≠ i2 ∧
      q1 = p.take (min i1 i2 + 1) ++ p.drop (max i1 i2) ∧
      q2 = (p.drop (min i1 i2)).take (max i1 i2 - min i1 i2 + 1) := by
  rw [get_resolved_polygons] at h
  split at h
  next i1 i2 hgi =>
    obtain ⟨hb, hr, hne⟩ := grpIndices_spec hgi
    obtain ⟨h1, h2⟩ := Prod.mk.inj (Except.ok.inj h)
    refine ⟨i1, i2, hb, hr, ?_, h1.symm, h2.symm⟩
    intro hc
    subst hc
    exact hne (Option.some.inj (hb.symm.trans hr)).symm
  next hne =>
    exact absurd h (by simp)

theorem grp_bounds {p q1 q2 : Polygon} {r bp : Point}
    (h : get_resolved_polygons p r bp = .ok (q1, q2)) :
    q1.length + q2.length = p.length + 2 ∧
    (∀ pt ∈ q1, pt ∈ p) ∧ (∀ pt ∈ q2, pt ∈ p) ∧
    (3 ≤ q1.length → 3 ≤ q2.length →
      q1.length < p.length ∧ q2.length < p.length) := by
  obtain ⟨i1, i2, hb, hr, hne, hq1, hq2⟩ := get_resolved_polygons_shape h
  have hi1 : i1 < p.length := (List.getElem?_eq_some.mp hb).1
  have hi2 : i2 < p.length := (List.getElem?_eq_some.mp hr).1
  have hmm : min i1 i2 < max i1 i2 := min_lt_max.mpr hne
  have hmx : max i1 i2 < p.length := max_lt hi1 hi2
  have hl1 : q1.length = min i1 i2 + 1 + (p.length - max i1 i2) := by
    rw [hq1]
    simp [List.length_take, List.length_drop]
    omega
  have hl2 : q2.length = max i1 i2 - min i1 i2 + 1 := by
    rw [hq2]
    simp [List.length_take, List.length_drop]
    omega
  refine ⟨by omega, ?_, ?_, by omega⟩
  · intro pt hpt
    rw [hq1] at hpt
    rcases List.mem_append.mp hpt with hpt | hpt
    · exact List.take_subset _ _ hpt
    · exact List.drop_subset _ _ hpt
  · intro pt hpt
    rw [hq2] at hpt
    exact List.drop_subset _ _ (List.take_subset _ _ hpt)

theorem resolveLoop_ok_some {ata : ℚ → ℚ → ℚ} {sqt : ℚ → ℚ}
    {dict : List (Point × ℚ)} {p : Polygon} {r : Point} :
    ∀ {ps : List Point} {bs : ℚ} {best : Option (Polygon × Polygon)}
      {pr : Polygon × Polygon},
      resolveLoop ata sqt dict p r ps bs best = .ok (some pr) →
      best = some pr ∨ ∃ pt ∈ ps, pt ≠ r ∧
        get_resolved_polygons p r pt = .ok pr ∧
        valid_resolve ata pr r = .ok true := by
  intro ps
  induction ps with
  | nil =>
    intro bs best pr h
    rw [resolveLoop] at h
    exact Or.inl (Except.ok.inj h)
  | cons pt rest ih =>
    intro bs best pr h
    rw [resolveLoop] at h
    split at h
    next hne =>
      split at h
      · exact absurd h (by simp)
      next cv hcv =>
        split at h
        next hsc =>
          split at h
          · exact absurd h (by simp)
          next polys hpolys =>
            split at h
            · exact absurd h (by simp)
            next hval =>
              rcases ih h with hbest | ⟨pt', hmem, hne', hg', hv'⟩
              · obtain rfl : polys = pr := Option.some.inj hbest
                exact Or.inr ⟨pt, List.mem_cons_self _ _, hne, hpolys, hval⟩
              · exact Or.inr ⟨pt', List.mem_cons_of_mem _ hmem, hne', hg', hv'⟩
            next hval =>
              rcases ih h with hbest | ⟨pt', hmem, hne', hg', hv'⟩
              · exact Or.inl hbest
              · exact Or.inr ⟨pt', List.mem_cons_of_mem _ hmem, hne', hg', hv'⟩
        next hsc =>
          rcases ih h with hbest | ⟨pt', hmem, hne', hg', hv'⟩
          · exact Or.inl hbest
          · exact Or.inr ⟨pt', List.mem_cons_of_mem _ hmem, hne', hg', hv'⟩
    next hne =>
      rcases ih h with hbest | ⟨pt', hmem, hne', hg', hv'⟩
      · exact Or.inl hbest
      · exact Or.inr ⟨pt', List.mem_cons_of_mem _ hmem, hne', hg', hv'⟩

theorem resolve_ok_some {ata : ℚ → ℚ → ℚ} {sqt : ℚ → ℚ}
    {dict : List (Point × ℚ)} {p : Polygon} {r : Point} {pr : Polygon × Polygon}
    (h : resolve ata sqt dict p r = .ok (some pr)) :
    ∃ pt ∈ p, pt ≠ r ∧ get_resolved_polygons p r pt = .ok pr ∧
      valid_resolve ata pr r = .ok true := by
  rcases resolveLoop_ok_some h with hbest | hsrc
  · exact absurd hbest (by simp)
  · exact hsrc

theorem valid_resolve_ok_true_lengths {ata : ℚ → ℚ → ℚ}
    {polys : Polygon × Polygon} {r : Point}
    (h : valid_resolve ata polys r = .ok true) :
    3 ≤ polys.1.length ∧ 3 ≤ polys.2.length := by
  rw [valid_resolve] at h
  split at h
  next hlt => exact absurd h (by simp)
  next hge =>
    rw [not_lt, le_min_iff] at hge
    exact ⟨hge.1, hge.2⟩

theorem hullLoop_error {ata : ℚ → ℚ → ℚ} {sqt : ℚ → ℚ} {p : List Point}
    {left : Point} : ∀ {fuel : Nat} {hl : List Point} {prev : Point}
    {heading : ℚ} {e : ACDError},
    hullLoop ata sqt p left fuel hl prev heading = .error e →
    e = .hullFuel ∨ e = .crash := by
  intro fuel
  induction fuel with
  | zero =>
    intro hl prev heading e h
    rw [hullLoop] at h
    exact Or.inl (Except.error.inj h).symm
  | succ n ih =>
    intro hl prev heading e h
    rw [hullLoop] at h
    split at h
    · exact Or.inr (Except.error.inj h).symm
    · split at h
      · exact absurd h (by simp)
      · exact ih h

theorem concWalk_error {sqt : ℚ → ℚ} {hull : List Point} :
    ∀ {ps : List Point} {st : List (Point × ℚ) × Int × Nat} {e : ACDError},
      concWalk sqt hull ps st = .error e → e = .crash := by
  intro ps
  induction ps with
  | nil =>
    intro st e h
    rw [concWalk] at h
    exact absurd h (by simp)
  | cons pt rest ih =>
    intro st e h
    obtain ⟨dict, l, r⟩ := st
    rw [concWalk] at h
    split at h
    · exact ih h
    · split at h
      · exact ih h
      · exact (Except.error.inj h).symm

theorem notchScan_error {dict : List (Point × ℚ)} {mc : ℚ} :
    ∀ {ps : List Point} {acc : Option Point} {e : ACDError},
      notchScan dict mc ps acc = .error e → e = .crash := by
  intro ps
  induction ps with
  | nil =>
    intro acc e h
    rw [notchScan] at h
    exact absurd h (by simp)
  | cons pt rest ih =>
    intro acc e h
    rw [notchScan] at h
    split at h
    · exact (Except.error.inj h).symm
    · exact ih h

theorem concavity_error {ata : ℚ → ℚ → ℚ} {sqt : ℚ → ℚ} {hf : Nat}
    {p : Polygon} {e : ACDError} (h : concavity ata sqt hf p = .error e) :
    e = .hullFuel ∨ e = .crash := by
  rw [concavity] at h
  split at h
  next e' hh =>
    obtain rfl : e' = e := Except.error.inj h
    rw [convex_hull] at hh
    split at hh
    · exact Or.inr (Except.error.inj hh).symm
    · exact hullLoop_error hh
  next hull hh =>
    split at h
    next e' hw =>
      obtain rfl : e' = e := Except.error.inj h
      exact Or.inr (concWalk_error hw)
    next st hw =>
      split at h
      · exact Or.inr (Except.error.inj h).symm
      next mc hmax =>
        split at h
        next e' hs =>
          obtain rfl : e' = e := Except.error.inj h
          exact Or.inr (notchScan_error hs)
        · exact Or.inr (Except.error.inj h).symm
        · exact absurd h (by simp)

theorem interiorAtNotch_error {ata : ℚ → ℚ → ℚ} {r : Point} {q : Polygon}
    {e : ACDError} (h : interiorAtNotch ata r q = .error e) : e = .crash := by
  rw [interiorAtNotch] at h
  split at h
  · exact (Except.error.inj h).symm
  · split at h
    · exact absurd h (by simp)
    · exact (Except.error.inj h).symm

theorem valid_resolve_error {ata : ℚ → ℚ → ℚ} {polys : Polygon × Polygon}
    {r : Point} {e : ACDError} (h : valid_resolve ata polys r = .error e) :
    e = .crash := by
  rw [valid_resolve] at h
  split at h
  · exact absurd h (by simp)
  · split at h
    next e' h1 =>
      obtain rfl : e' = e := Except.error.inj h
      exact interiorAtNotch_error h1
    next a1 h1 =>
      split at h
      · exact absurd h (by simp)
      · split at h
        next e' h2 =>
          obtain rfl : e' = e := Except.error.inj h
          exact interiorAtNotch_error h2
        next a2 h2 => exact absurd h (by simp)

theorem get_resolved_polygons_error {p : Polygon} {r bp : Point} {e : ACDError}
    (h : get_resolved_polygons p r bp = .error e) : e = .crash := by
  rw [get_resolved_polygons] at h
  split at h
  · exact absurd h (by simp)
  · exact (Except.error.inj h).symm

theorem resolveLoop_error {ata : ℚ → ℚ → ℚ} {sqt : ℚ → ℚ}
    {dict : List (Point × ℚ)} {p : Polygon} {r : Point} :
    ∀ {ps : List Point} {bs : ℚ} {best : Option (Polygon × Polygon)}
      {e : ACDError},
      resolveLoop ata sqt dict p r ps bs best = .error e → e = .crash := by
  intro ps
  induction ps with
  | nil =>
    intro bs best e h
    rw [resolveLoop] at h
    exact absurd h (by simp)
  | cons pt rest ih =>
    intro bs best e h
    rw [resolveLoop] at h
    split at h
    · split at h
      · exact (Except.error.inj h).symm
      · split at h
        · split at h
          next e' h1 =>
            obtain rfl : e' = e := Except.error.inj h
            exact get_resolved_polygons_error h1
          · split at h
            next e' h2 =>
              obtain rfl : e' = e := Except.error.inj h
              exact valid_resolve_error h2
            · exact ih h
            · exact ih h
        · exact ih h
    · exact ih h

theorem resolve_error {ata : ℚ → ℚ → ℚ} {sqt : ℚ → ℚ}
    {dict : List (Point × ℚ)} {p : Polygon} {r : Point} {e : ACDError}
    (h : resolve ata sqt dict p r = .error e) : e = .crash :=
  resolveLoop_error h

theorem resolve_children_smaller {ata : ℚ → ℚ → ℚ} {sqt : ℚ → ℚ}
    {dict : List (Point × ℚ)} {p : Polygon} {r : Point} {q1 q2 : Polygon}
    (h : resolve ata sqt dict p r = .ok (some (q1, q2))) :
    q1.length < p.length ∧ q2.length < p.length := by
  obtain ⟨pt, hmem, hne, hgrp, hval⟩ := resolve_ok_some h
  obtain ⟨hl1, hl2⟩ := valid_resolve_ok_true_lengths hval
  exact (grp_bounds hgrp).2.2.2 hl1 hl2

/-- C2. Each successful notch resolution produces two sub-polygons that are
both strictly smaller than the parent, and consequently the recursion of
`ACD` never exhausts a recursion-depth budget of `p.length`: the only errors
it can report are genuine ones (hull nontermination, a Python exception, or a
failed resolution), never `recFuel`. -/
theorem acd_split_shrinks_and_terminates (ata : ℚ → ℚ → ℚ) (sqt : ℚ → ℚ) :
    (∀ (dict : List (Point × ℚ)) (p : Polygon) (r : Point) (q1 q2 : Polygon),
      resolve ata sqt dict p r = .ok (some (q1, q2)) →
      q1.length < p.length ∧ q2.length < p.length) ∧
    (∀ (rf hf : Nat) (p : Polygon) (tau : ℚ), 1 ≤ rf → p.length ≤ rf →
      ACD ata sqt rf hf p tau ≠ .error .recFuel) := by
  constructor
  · intro dict p r q1 q2 h
    exact resolve_children_smaller h
  · intro rf
    induction rf with
    | zero => intro hf p tau h1 _; exact absurd h1 (by simp)
    | succ n ih =>
      intro hf p tau h1 hlen hcontra
      rw [ACD] at hcontra
      split at hcontra
      next e hconc =>
        obtain rfl : e = .recFuel := Except.error.inj hcontra
        rcases concavity_error hconc with h' | h' <;> simp at h'
      next r dict hconc =>
        split at hcontra
        · simp at hcontra
        next c hget =>
          split at hcontra
          next hlt => simp at hcontra
          next hge =>
            split at hcontra
            next e hres =>
              obtain rfl : e = .recFuel := Except.error.inj hcontra
              have := resolve_error hres
              simp at this
            next hres => simp at hcontra
            next p1 p2 hres =>
              obtain ⟨hs1, hs2⟩ := resolve_children_smaller hres
              obtain ⟨pt, hmem, hne, hgrp, hval⟩ := resolve_ok_some hres
              obtain ⟨hl1, hl2⟩ := valid_resolve_ok_true_lengths hval
              have hl1' : 3 ≤ p1.length := hl1
              have hl2' : 3 ≤ p2.length := hl2
              split at hcontra
              next e h1 =>
                obtain rfl : e = .recFuel := Except.error.inj hcontra
                exact ih hf p1 tau (by omega) (by omega) h1
              next l1 h1 =>
                split at hcontra
                next e h2 =>
                  obtain rfl : e = .recFuel := Except.error.inj hcontra
                  exact ih hf p2 tau (by omega) (by omega) h2
                next l2 h2 => simp at hcontra

/-- Witness for C2: on the concrete polygon `Pcw` the resolved sub-polygons
have 3 and 4 vertices against the parent's 5, and `ACD` with recursion budget
5 does not report recursion-fuel exhaustion. -/
theorem acd_split_shrinks_and_terminates_witness :
    (([(0, 0), (4, 4), (8, 0)] : Polygon).length < Pcw.length ∧
      ([(0, 0), (0, 8), (8, 8), (4, 4)] : Polygon).length < Pcw.length) ∧
    ACD ataOct sqtId 5 20 Pcw 1 ≠ .error .recFuel :=
  ⟨(acd_split_shrinks_and_terminates ataOct sqtId).1
      [((0, 0), 0), ((0, 8), 0), ((8, 8), 0), ((4, 4), 32), ((8, 0), 0)]
      Pcw (4, 4) _ _ (by with_unfolding_all rfl),
   (acd_split_shrinks_and_terminates ataOct sqtId).2 5 20 Pcw 1 (by decide)
      (by decide)⟩

/-- C9. A candidate split leaving either sub-polygon with fewer than 3
vertices is rejected by `valid_resolve`, and every polygon in a successful
`ACD` output has at least 3 vertices whenever the input does. -/
theorem acd_min_vertices (ata : ℚ → ℚ → ℚ) (sqt : ℚ → ℚ) :
    (∀ (polys : Polygon × Polygon) (r : Point) (b : Bool),
      valid_resolve ata polys r = .ok b →
      polys.1.length < 3 ∨ polys.2.length < 3 → b = false) ∧
    (∀ (rf hf : Nat) (p : Polygon) (tau : ℚ) (L : List Polygon),
      3 ≤ p.length → ACD ata sqt rf hf p tau = .ok L →
      ∀ q ∈ L, 3 ≤ q.length) := by
  constructor
  · intro polys r b h hlt
    have hmin : min polys.1.length polys.2.length < 3 := by
      rcases hlt with h' | h'
      · exact lt_of_le_of_lt (min_le_left _ _) h'
      · exact lt_of_le_of_lt (min_le_right _ _) h'
    rw [valid_resolve, if_pos hmin] at h
    exact (Except.ok.inj h).symm
  · intro rf
    induction rf with
    | zero =>
      intro hf p tau L _ h
      rw [ACD] at h
      exact absurd h (by simp)
    | succ n ih =>
      intro hf p tau L h3 h
      rw [ACD] at h
      split at h
      · exact absurd h (by simp)
      next r dict hconc =>
        split at h
        · exact absurd h (by simp)
        next c hget =>
          split at h
          next hlt =>
            obtain rfl : [p] = L := Except.ok.inj h
            intro q hq
            obtain rfl : q = p := List.mem_singleton.mp hq
            exact h3
          next hge =>
            split at h
            · exact absurd h (by simp)
            · exact absurd h (by simp)
            next p1 p2 hres =>
              obtain ⟨pt, hmem, hne, hgrp, hval⟩ := resolve_ok_some hres
              obtain ⟨hl1, hl2⟩ := valid_resolve_ok_true_lengths hval
              split at h
              · exact absurd h (by simp)
              next l1 h1 =>
                split at h
                · exact absurd h (by simp)
                next l2 h2 =>
                  obtain rfl : l1 ++ l2 = L := Except.ok.inj h
                  intro q hq
                  rcases List.mem_append.mp hq with hq | hq
                  · exact ih hf p1 tau l1 hl1 h1 q hq
                  · exact ih hf p2 tau l2 hl2 h2 q hq

/-- Witness for C9: a 2-vertex candidate split of `Pcw` is rejected, and the
concrete output polygons of `ACD` on `Pcw` all have at least 3 vertices. -/
theorem acd_min_vertices_witness :
    (false = false) ∧
    ∀ q ∈ ([[(0, 0), (4, 4), (8, 0)], [(0, 0), (0, 8), (8, 8), (4, 4)]] :
        List Polygon), 3 ≤ q.length :=
  ⟨(acd_min_vertices ataOct sqtId).1 ([(0, 0), (4, 4)], [(0, 0), (4, 4), (0, 8)])
      (4, 4) false (by with_unfolding_all rfl) (by decide),
   (acd_min_vertices ataOct sqtId).2 5 20 Pcw 1 _ (by decide)
      (by with_unfolding_all rfl)⟩

/-- C10. A split duplicates exactly the two diagonal endpoints (the vertex
counts of the two sub-polygons sum to the parent's plus 2) and introduces no
new points; consequently every vertex of every polygon returned by `ACD` is a
vertex of the input polygon. -/
theorem acd_vertices_subset (ata : ℚ → ℚ → ℚ) (sqt : ℚ → ℚ) :
    (∀ (p : Polygon) (r bp : Point) (q1 q2 : Polygon),
      get_resolved_polygons p r bp = .ok (q1, q2) →
      (∀ pt ∈ q1, pt ∈ p) ∧ (∀ pt ∈ q2, pt ∈ p) ∧
      q1.length + q2.length = p.length + 2) ∧
    (∀ (rf hf : Nat) (p : Polygon) (tau : ℚ) (L : List Polygon),
      ACD ata sqt rf hf p tau = .ok L → ∀ q ∈ L, ∀ pt ∈ q, pt ∈ p) := by
  constructor
  · intro p r bp q1 q2 h
    obtain ⟨hsum, hm1, hm2, _⟩ := grp_bounds h
    exact ⟨hm1, hm2, hsum⟩
  · intro rf
    induction rf with
    | zero =>
      intro hf p tau L h
      rw [ACD] at h
      exact absurd h (by simp)
    | succ n ih =>
      intro hf p tau L h
      rw [ACD] at h
      split at h
      · exact absurd h (by simp)
      next r dict hconc =>
        split at h
        · exact absurd h (by simp)
        next c hget =>
          split at h
          next hlt =>
            obtain rfl : [p] = L := Except.ok.inj h
            intro q hq
            obtain rfl : q = p := List.mem_singleton.mp hq
            exact fun pt hpt => hpt
          next hge =>
            split at h
            · exact absurd h (by simp)
            · exact absurd h (by simp)
            next p1 p2 hres =>
              obtain ⟨pt0, hmem, hne, hgrp, hval⟩ := resolve_ok_some hres
              obtain ⟨_, hm1, hm2, _⟩ := grp_bounds hgrp
              split at h
              · exact absurd h (by simp)
              next l1 h1 =>
                split at h
                · exact absurd h (by simp)
                next l2 h2 =>
                  obtain rfl : l1 ++ l2 = L := Except.ok.inj h
                  intro q hq
                  rcases List.mem_append.mp hq with hq | hq
                  · exact fun pt hpt => hm1 pt (ih hf p1 tau l1 h1 q hq pt hpt)
                  · exact fun pt hpt => hm2 pt (ih hf p2 tau l2 h2 q hq pt hpt)

/-- Witness for C10: the concrete split of `Pcw` at the diagonal from the
notch `(4,4)` to `(0,0)` keeps all vertices inside `Pcw` and duplicates
exactly the two endpoints, and the `ACD` output vertices all belong to
`Pcw`. -/
theorem acd_vertices_subset_witness :
    ((∀ pt ∈ ([(0, 0), (4, 4), (8, 0)] : Polygon), pt ∈ Pcw) ∧
      (∀ pt ∈ ([(0, 0), (0, 8), (8, 8), (4, 4)] : Polygon), pt ∈ Pcw) ∧
      ([(0, 0), (4, 4), (8, 0)] : Polygon).length +
        ([(0, 0), (0, 8), (8, 8), (4, 4)] : Polygon).length = Pcw.length + 2) ∧
    ∀ q ∈ ([[(0, 0), (4, 4), (8, 0)], [(0, 0), (0, 8), (8, 8), (4, 4)]] :
        List Polygon), ∀ pt ∈ q, pt ∈ Pcw :=
  ⟨(acd_vertices_subset ataOct sqtId).1 Pcw (4, 4) (0, 0) _ _
      (by with_unfolding_all rfl),
   (acd_vertices_subset ataOct sqtId).2 5 20 Pcw 1 _
      (by with_unfolding_all rfl)⟩

theorem acd_ok_child {ata : ℚ → ℚ → ℚ} {sqt : ℚ → ℚ} {hf : Nat} {tau : ℚ}
    {p : Polygon} {r : Point} {dict : List (Point × ℚ)} {c : ℚ}
    {p1 p2 : Polygon} {rf : Nat} {L : List Polygon}
    (hconc : concavity ata sqt hf p = .ok (r, dict))
    (hget : dictGet r dict = some c) (hnlt : ¬ c < tau)
    (hres : resolve ata sqt dict p r = .ok (some (p1, p2)))
    (h : ACD ata sqt rf hf p tau = .ok L) :
    ∃ n l1 l2, rf = n + 1 ∧ ACD ata sqt n hf p1 tau = .ok l1 ∧
      ACD ata sqt n hf p2 tau = .ok l2 ∧ L = l1 ++ l2 := by
  cases rf with
  | zero =>
    rw [ACD] at h
    exact absurd h (by simp)
  | succ n =>
    rw [ACD] at h
    split at h
    next e heq => rw [hconc] at heq; exact absurd heq (by simp)
    next r' dict' heq =>
      rw [hconc] at heq
      obtain ⟨hr, hd⟩ := Prod.mk.inj (Except.ok.inj heq)
      subst hr
      subst hd
      split at h
      next heq2 => rw [hget] at heq2; exact absurd heq2 (by simp)
      next c' heq2 =>
        rw [hget] at heq2
        obtain rfl : c = c' := Option.some.inj heq2
        split at h
        next hlt => exact absurd hlt hnlt
        next =>
          split at h
          next e heq3 => rw [hres] at heq3; exact absurd heq3 (by simp)
          next heq3 => rw [hres] at heq3; exact absurd heq3 (by simp)
          next p1' p2' heq3 =>
            rw [hres] at heq3
            obtain ⟨h1, h2⟩ := Prod.mk.inj (Option.some.inj (Except.ok.inj heq3))
            subst h1
            subst h2
            split at h
            · exact absurd h (by simp)
            next l1 hc1 =>
              split at h
              · exact absurd h (by simp)
              next l2 hc2 =>
                exact ⟨n, l1, l2, rfl, hc1, hc2, (Except.ok.inj h).symm⟩

theorem reaches_acd_ok {ata : ℚ → ℚ → ℚ} {sqt : ℚ → ℚ} {hf : Nat} {tau : ℚ} :
    ∀ {p q : Polygon}, Reaches ata sqt hf tau p q →
      ∀ {rf : Nat} {L : List Polygon}, ACD ata sqt rf hf p tau = .ok L →
      ∃ rf' L', ACD ata sqt rf' hf q tau = .ok L' := by
  intro p q hre
  induction hre with
  | refl p => exact fun h => ⟨_, _, h⟩
  | left hconc hget hnlt hres _ ih =>
    intro rf L h
    obtain ⟨n, l1, l2, rfl, h1, h2, rfl⟩ := acd_ok_child hconc hget hnlt hres h
    exact ih h1
  | right hconc hget hnlt hres _ ih =>
    intro rf L h
    obtain ⟨n, l1, l2, rfl, h1, h2, rfl⟩ := acd_ok_child hconc hget hnlt hres h
    exact ih h2

/-- C3. If recursion starting from `p` reaches a polygon `q` whose notch
concavity is not below tolerance and for which `resolve` finds no valid
diagonal, then the call on `q` signals the decomposition failure, and the
top-level call on `p` cannot return any list — the failure propagates rather
than yielding a partial decomposition. -/
theorem acd_failure_propagates (ata : ℚ → ℚ → ℚ) (sqt : ℚ → ℚ) (hf : Nat)
    (tau : ℚ) (p q : Polygon) (r : Point) (dict : List (Point × ℚ)) (c : ℚ)
    (hre : Reaches ata sqt hf tau p q)
    (hconc : concavity ata sqt hf q = .ok (r, dict))
    (hget : dictGet r dict = some c) (hnlt : ¬ c < tau)
    (hres : resolve ata sqt dict q r = .ok none) :
    (∀ rf, ACD ata sqt (rf + 1) hf q tau = .error .decompositionFailure) ∧
    (∀ rf L, ACD ata sqt rf hf p tau ≠ .ok L) := by
  have hq : ∀ rf, ACD ata sqt (rf + 1) hf q tau = .error .decompositionFailure := by
    intro rf
    rw [ACD]
    simp only [hconc, hget, if_neg hnlt, hres]
  refine ⟨hq, ?_⟩
  intro rf L hok
  obtain ⟨rf', L', hq'⟩ := reaches_acd_ok hre hok
  match rf' with
  | 0 => rw [ACD] at hq'; exact absurd hq' (by simp)
  | n + 1 => rw [hq n] at hq'; exact absurd hq' (by simp)

/-- Witness for C3: on the counter-clockwise polygon `Pccw` the notch `(4,4)`
admits no valid diagonal; `ACD` reports the failure and returns no list. -/
theorem acd_failure_propagates_witness :
    (ACD ataOct sqtId 3 20 Pccw 1 = .error .decompositionFailure) ∧
    (ACD ataOct sqtId 5 20 Pccw 1 ≠ .ok []) :=
  ⟨(acd_failure_propagates ataOct sqtId 20 1 Pccw Pccw (4, 4)
      [((0, 0), 0), ((8, 0), 0), ((8, 8), 0), ((4, 4), 32), ((0, 8), 0)] 32
      (Reaches.refl Pccw) (by with_unfolding_all rfl)
      (by with_unfolding_all rfl) (by norm_num)
      (by with_unfolding_all rfl)).1 2,
   (acd_failure_propagates ataOct sqtId 20 1 Pccw Pccw (4, 4)
      [((0, 0), 0), ((8, 0), 0), ((8, 8), 0), ((4, 4), 32), ((0, 8), 0)] 32
      (Reaches.refl Pccw) (by with_unfolding_all rfl)
      (by with_unfolding_all rfl) (by norm_num)
      (by with_unfolding_all rfl)).2 5 []⟩

theorem resolveLoop_max {ata : ℚ → ℚ → ℚ} {sqt : ℚ → ℚ}
    {dict : List (Point × ℚ)} {p : Polygon} {r : Point} :
    ∀ {ps : List Point} {bs : ℚ} {best res : Option (Polygon × Polygon)},
      resolveLoop ata sqt dict p r ps bs best = .ok res →
      ∃ bs', bs ≤ bs' ∧
        (∀ pt' ∈ ps, pt' ≠ r → ∀ cv' pr', dictGet pt' dict = some cv' →
          get_resolved_polygons p r pt' = .ok pr' →
          valid_resolve ata pr' r = .ok true →
          (1 + (1 / 10) * cv') / (1 + get_dist sqt pt' r) ≤ bs') ∧
        ((res = best ∧ bs' = bs) ∨
         (∃ pt cv, pt ∈ ps ∧ pt ≠ r ∧ dictGet pt dict = some cv ∧
            (1 + (1 / 10) * cv) / (1 + get_dist sqt pt r) = bs' ∧
            ∃ prr, get_resolved_polygons p r pt = .ok prr ∧
              valid_resolve ata prr r = .ok true ∧ res = some prr)) := by
  intro ps
  induction ps with
  | nil =>
    intro bs best res h
    rw [resolveLoop] at h
    refine ⟨bs, le_refl bs, by simp, Or.inl ⟨(Except.ok.inj h).symm, rfl⟩⟩
  | cons pt rest ih =>
    intro bs best res h
    rw [resolveLoop] at h
    split at h
    next hne =>
      split at h
      · exact absurd h (by simp)
      next cv hcv =>
        split at h
        next hbs =>
          split at h
          · exact absurd h (by simp)
          next polys hpolys =>
            split at h
            · exact absurd h (by simp)
            next hval =>
              obtain ⟨bs', hle, hmax, hor⟩ := ih h
              refine ⟨bs', le_trans (le_of_lt hbs) hle, ?_, ?_⟩
              · intro pt' hm' hn' cv' pr' hcv' hg' hv'
                rcases List.mem_cons.mp hm' with rfl | hm'
                · obtain rfl : cv = cv' := Option.some.inj (hcv.symm.trans hcv')
                  exact hle
                · exact hmax pt' hm' hn' cv' pr' hcv' hg' hv'
              · rcases hor with ⟨hres, hbs'⟩ | ⟨pt0, cv0, hm0, hn0, hc0, hs0, prr, hg0, hv0, hr0⟩
                · exact Or.inr ⟨pt, cv, List.mem_cons_self _ _, hne, hcv,
                    hbs'.symm, polys, hpolys, hval, hres⟩
                · exact Or.inr ⟨pt0, cv0, List.mem_cons_of_mem _ hm0, hn0, hc0,
                    hs0, prr, hg0, hv0, hr0⟩
            next hval =>
              obtain ⟨bs', hle, hmax, hor⟩ := ih h
              refine ⟨bs', hle, ?_, ?_⟩
              · intro pt' hm' hn' cv' pr' hcv' hg' hv'
                rcases List.mem_cons.mp hm' with rfl | hm'
                · obtain rfl : polys = pr' := Except.ok.inj (hpolys.symm.trans hg')
                  exact absurd (hval.symm.trans hv') (by simp)
                · exact hmax pt' hm' hn' cv' pr' hcv' hg' hv'
              · rcases hor with ⟨hres, hbs'⟩ | ⟨pt0, cv0, hm0, hn0, hc0, hs0, prr, hg0, hv0, hr0⟩
                · exact Or.inl ⟨hres, hbs'⟩
                · exact Or.inr ⟨pt0, cv0, List.mem_cons_of_mem _ hm0, hn0, hc0,
                    hs0, prr, hg0, hv0, hr0⟩
        next hbs =>
          obtain ⟨bs', hle, hmax, hor⟩ := ih h
          refine ⟨bs', hle, ?_, ?_⟩
          · intro pt' hm' hn' cv' pr' hcv' hg' hv'
            rcases List.mem_cons.mp hm' with rfl | hm'
            · obtain rfl : cv = cv' := Option.some.inj (hcv.symm.trans hcv')
              exact le_trans (le_of_not_lt hbs) hle
            · exact hmax pt' hm' hn' cv' pr' hcv' hg' hv'
          · rcases hor with ⟨hres, hbs'⟩ | ⟨pt0, cv0, hm0, hn0, hc0, hs0, prr, hg0, hv0, hr0⟩
            · exact Or.inl ⟨hres, hbs'⟩
            · exact Or.inr ⟨pt0, cv0, List.mem_cons_of_mem _ hm0, hn0, hc0,
                hs0, prr, hg0, hv0, hr0⟩
    next hne =>
      have hptr : pt = r := not_not.mp hne
      obtain ⟨bs', hle, hmax, hor⟩ := ih h
      refine ⟨bs', hle, ?_, ?_⟩
      · intro pt' hm' hn' cv' pr' hcv' hg' hv'
        rcases List.mem_cons.mp hm' with rfl | hm'
        · exact absurd hptr hn'
        · exact hmax pt' hm' hn' cv' pr' hcv' hg' hv'
      · rcases hor with ⟨hres, hbs'⟩ | ⟨pt0, cv0, hm0, hn0, hc0, hs0, prr, hg0, hv0, hr0⟩
        · exact Or.inl ⟨hres, hbs'⟩
        · exact Or.inr ⟨pt0, cv0, List.mem_cons_of_mem _ hm0, hn0, hc0,
            hs0, prr, hg0, hv0, hr0⟩

/-- C7. When `resolve` returns a pair of sub-polygons, that pair was produced
by `get_resolved_polygons` from a candidate vertex distinct from the notch
whose split is valid, and whose score
`(1 + 0.1 * concavity[candidate]) / (1.0 + dist(candidate, r))` is maximal
among all candidates of `p` distinct from `r` whose diagonal yields a valid
split. -/
theorem resolve_maximizes_score (ata : ℚ → ℚ → ℚ) (sqt : ℚ → ℚ)
    (dict : List (Point × ℚ)) (p : Polygon) (r : Point) (pr : Polygon × Polygon)
    (h : resolve ata sqt dict p r = .ok (some pr)) :
    ∃ pt cv, pt ∈ p ∧ pt ≠ r ∧ dictGet pt dict = some cv ∧
      get_resolved_polygons p r pt = .ok pr ∧
      valid_resolve ata pr r = .ok true ∧
      ∀ pt' ∈ p, pt' ≠ r → ∀ cv' pr', dictGet pt' dict = some cv' →
        get_resolved_polygons p r pt' = .ok pr' →
        valid_resolve ata pr' r = .ok true →
        (1 + (1 / 10) * cv') / (1 + get_dist sqt pt' r) ≤
          (1 + (1 / 10) * cv) / (1 + get_dist sqt pt r) := by
  obtain ⟨bs', hle, hmax, hor⟩ := resolveLoop_max h
  rcases hor with ⟨hres, _⟩ | ⟨pt, cv, hmem, hne, hcv, hsc, prr, hgrp, hval, hres⟩
  · exact absurd hres (by simp)
  · obtain rfl : pr = prr := Option.some.inj hres
    refine ⟨pt, cv, hmem, hne, hcv, hgrp, hval, ?_⟩
    intro pt' hm' hn' cv' pr' hcv' hg' hv'
    rw [hsc]
    exact hmax pt' hm' hn' cv' pr' hcv' hg' hv'

/-- Witness for C7 at the concrete polygon `Pcw` with notch `(4,4)` and its
actual concavity dictionary: the returned split comes from the best-scoring
valid candidate. -/
theorem resolve_maximizes_score_witness :
    ∃ pt cv, pt ∈ Pcw ∧ pt ≠ (4, 4) ∧
      dictGet pt [((0, 0), 0), ((0, 8), 0), ((8, 8), 0), ((4, 4), 32),
        ((8, 0), 0)] = some cv ∧
      get_resolved_polygons Pcw (4, 4) pt =
        .ok ([(0, 0), (4, 4), (8, 0)], [(0, 0), (0, 8), (8, 8), (4, 4)]) ∧
      valid_resolve ataOct
        ([(0, 0), (4, 4), (8, 0)], [(0, 0), (0, 8), (8, 8), (4, 4)]) (4, 4) =
        .ok true ∧
      ∀ pt' ∈ Pcw, pt' ≠ (4, 4) → ∀ cv' pr',
        dictGet pt' [((0, 0), 0), ((0, 8), 0), ((8, 8), 0), ((4, 4), 32),
          ((8, 0), 0)] = some cv' →
        get_resolved_polygons Pcw (4, 4) pt' = .ok pr' →
        valid_resolve ataOct pr' (4, 4) = .ok true →
        (1 + (1 / 10) * cv') / (1 + get_dist sqtId pt' (4, 4)) ≤
          (1 + (1 / 10) * cv) / (1 + get_dist sqtId pt (4, 4)) :=
  resolve_maximizes_score ataOct sqtId
    [((0, 0), 0), ((0, 8), 0), ((8, 8), 0), ((4, 4), 32), ((8, 0), 0)]
    Pcw (4, 4) _ (by with_unfolding_all rfl)

/-- C6. For any atan2 value in the range `(-180, 180]` of `np.arctan2 * 180/π`
and any heading in `[0, 360]` (the range maintained by `convex_hull`'s
accumulation, which starts at 0 and closes before a full turn), the
adjustment angle lies in `[0, 360)` — in particular it is never negative. -/
theorem get_adj_angle_range (ata : ℚ → ℚ → ℚ) (heading : ℚ) (pp np : Point)
    (h1 : -180 < ata (np.2 - pp.2) (np.1 - pp.1))
    (h2 : ata (np.2 - pp.2) (np.1 - pp.1) ≤ 180)
    (h3 : 0 ≤ heading) (h4 : heading ≤ 360) :
    0 ≤ get_adj_angle ata heading pp np ∧
      get_adj_angle ata heading pp np < 360 := by
  simp only [get_adj_angle]
  split_ifs <;> constructor <;> linarith

/-- Witness for C6 at the diagonal direction `(0,0) → (1,1)` (atan2 value 45)
and the mid-range heading 100. -/
theorem get_adj_angle_range_witness :
    0 ≤ get_adj_angle ataOct 100 (0, 0) (1, 1) ∧
      get_adj_angle ataOct 100 (0, 0) (1, 1) < 360 :=
  get_adj_angle_range ataOct 100 (0, 0) (1, 1)
    (by norm_num [ataOct]) (by norm_num [ataOct]) (by norm_num) (by norm_num)

theorem hullScan_mono {ata : ℚ → ℚ → ℚ} {sqt : ℚ → ℚ} {heading : ℚ}
    {prev : Point} :
    ∀ (cands : List Point) (st : ℚ × Option Point × ℚ),
      (hullScan ata sqt heading prev cands st).1 < st.1 ∨
      ((hullScan ata sqt heading prev cands st).1 = st.1 ∧
        (hullScan ata sqt heading prev cands st).2.2 ≤ st.2.2) := by
  intro cands
  induction cands with
  | nil =>
    intro st
    rw [hullScan]
    exact Or.inr ⟨rfl, le_refl _⟩
  | cons np rest ih =>
    intro st
    obtain ⟨ca, cp, cd⟩ := st
    rw [hullScan]
    split
    · split
      next hcond =>
        rcases ih (get_adj_angle ata heading prev np, some np,
            get_dist sqt prev np) with h' | ⟨he, hd⟩
        · rcases hcond with hlt | ⟨heq, _⟩
          · exact Or.inl (lt_trans h' hlt)
          · exact Or.inl (heq ▸ h')
        · rcases hcond with hlt | ⟨heq, hdl⟩
          · exact Or.inl (lt_of_le_of_lt (le_of_eq he) hlt)
          · exact Or.inr ⟨he.trans heq, le_of_lt (lt_of_le_of_lt hd hdl)⟩
      · exact ih (ca, cp, cd)
    · exact ih (ca, cp, cd)

theorem hullScan_selected {ata : ℚ → ℚ → ℚ} {sqt : ℚ → ℚ} {heading : ℚ}
    {prev : Point} :
    ∀ {cands : List Point} {st : ℚ × Option Point × ℚ} {ca : ℚ} {cp : Point}
      {cd : ℚ},
      hullScan ata sqt heading prev cands st = (ca, some cp, cd) →
      st = (ca, some cp, cd) ∨
      (cp ∈ cands ∧ cp ≠ prev ∧ ca = get_adj_angle ata heading prev cp ∧
        cd = get_dist sqt prev cp) := by
  intro cands
  induction cands with
  | nil =>
    intro st ca cp cd h
    rw [hullScan] at h
    exact Or.inl h
  | cons np rest ih =>
    intro st ca cp cd h
    obtain ⟨ca0, cp0, cd0⟩ := st
    rw [hullScan] at h
    split at h
    next hne =>
      split at h
      next hcond =>
        rcases ih h with heq | ⟨hm, hn, he1, he2⟩
        · obtain ⟨e1, e23⟩ := Prod.mk.inj heq
          obtain ⟨e2a, e2b⟩ := Prod.mk.inj e23
          obtain rfl : np = cp := Option.some.inj e2a
          exact Or.inr ⟨List.mem_cons_self _ _, hne, e1.symm, e2b.symm⟩
        · exact Or.inr ⟨List.mem_cons_of_mem _ hm, hn, he1, he2⟩
      next =>
        rcases ih h with heq | ⟨hm, hn, he1, he2⟩
        · exact Or.inl heq
        · exact Or.inr ⟨List.mem_cons_of_mem _ hm, hn, he1, he2⟩
    next =>
      rcases ih h with heq | ⟨hm, hn, he1, he2⟩
      · exact Or.inl heq
      · exact Or.inr ⟨List.mem_cons_of_mem _ hm, hn, he1, he2⟩

theorem hullScan_not_beaten {ata : ℚ → ℚ → ℚ} {sqt : ℚ → ℚ} {heading : ℚ}
    {prev : Point} :
    ∀ {cands : List Point} {st : ℚ × Option Point × ℚ} {ca : ℚ}
      {cpo : Option Point} {cd : ℚ},
      hullScan ata sqt heading prev cands st = (ca, cpo, cd) →
      ∀ c' ∈ cands, c' ≠ prev →
        ¬(get_adj_angle ata heading prev c' < ca) ∧
        ¬(get_adj_angle ata heading prev c' = ca ∧
          get_dist sqt prev c' < cd) := by
  intro cands
  induction cands with
  | nil =>
    intro st ca cpo cd h c' hm
    simp at hm
  | cons np rest ih =>
    intro st ca cpo cd h c' hm hn
    obtain ⟨ca0, cp0, cd0⟩ := st
    rw [hullScan] at h
    rcases List.mem_cons.mp hm with rfl | hm
    · rw [if_pos hn] at h
      split at h
      next hcond =>
        have hmono := @hullScan_mono ata sqt heading prev rest
          (get_adj_angle ata heading prev c', some c', get_dist sqt prev c')
        rw [h] at hmono
        dsimp only at hmono
        constructor
        · rcases hmono with h' | ⟨he, _⟩
          · exact fun hc => absurd (lt_trans h' hc) (lt_irrefl _)
          · exact fun hc => absurd (he ▸ hc) (lt_irrefl _)
        · rintro ⟨heq, hdlt⟩
          rcases hmono with h' | ⟨he, hd⟩
          · exact absurd (heq ▸ h') (lt_irrefl _)
          · exact absurd (lt_of_le_of_lt hd hdlt) (lt_irrefl _)
      next hcond =>
        rw [not_or] at hcond
        obtain ⟨hnlt, hnand⟩ := hcond
        have hmono := @hullScan_mono ata sqt heading prev rest (ca0, cp0, cd0)
        rw [h] at hmono
        dsimp only at hmono
        constructor
        · intro hc
          rcases hmono with h' | ⟨he, _⟩
          · exact hnlt (lt_trans hc h')
          · exact hnlt (he ▸ hc)
        · rintro ⟨heq, hdlt⟩
          rcases hmono with h' | ⟨he, hd⟩
          · exact hnlt (heq ▸ h')
          · refine hnand ⟨heq.trans he, ?_⟩
            exact lt_of_lt_of_le hdlt hd
    · split at h
      · split at h
        · exact ih h c' hm hn
        · exact ih h c' hm hn
      · exact ih h c' hm hn

/-- Amended C4 (counterexample: `hull_tiebreak_farther_refuted`).  In every
scan step of the gift-wrapping loop, a candidate requiring a strictly smaller
clockwise adjustment from the current heading is always selected over one
requiring a larger adjustment, but among candidates with an equal adjustment
angle the scan keeps the candidate at the *smaller* distance from the current
hull point (line 185 of ACD.py compares with `<` against the stored
distance): the selected candidate is never beaten by a strictly smaller
adjustment, nor by an equal adjustment at a strictly smaller distance. -/
theorem hull_scan_lex_minimal (ata : ℚ → ℚ → ℚ) (sqt : ℚ → ℚ) (heading : ℚ)
    (prev : Point) (cands : List Point) (ca cd : ℚ) (cp : Point)
    (h : hullScan ata sqt heading prev cands (360, none, 0) = (ca, some cp, cd)) :
    cp ∈ cands ∧ cp ≠ prev ∧ ca = get_adj_angle ata heading prev cp ∧
      cd = get_dist sqt prev cp ∧
      ∀ c' ∈ cands, c' ≠ prev →
        ¬(get_adj_angle ata heading prev c' < ca) ∧
        ¬(get_adj_angle ata heading prev c' = ca ∧
          get_dist sqt prev c' < cd) := by
  rcases hullScan_selected h with heq | ⟨hm, hn, he1, he2⟩
  · exact absurd (Prod.mk.inj (Prod.mk.inj heq).2).1 (by simp)
  · exact ⟨hm, hn, he1, he2, fun c' hm' hn' => hullScan_not_beaten h c' hm' hn'⟩

/-- Witness for the amended C4 at the concrete scan of candidates
`[(1,1), (2,2)]` from `(0,0)` with heading 0. -/
theorem hull_scan_lex_minimal_witness :
    ((1, 1) : Point) ∈ ([(1, 1), (2, 2)] : List Point) ∧
      ((1, 1) : Point) ≠ (0, 0) ∧
      (45 : ℚ) = get_adj_angle ataOct 0 (0, 0) (1, 1) ∧
      (2 : ℚ) = get_dist sqtId (0, 0) (1, 1) ∧
      ∀ c' ∈ ([(1, 1), (2, 2)] : List Point), c' ≠ (0, 0) →
        ¬(get_adj_angle ataOct 0 (0, 0) c' < 45) ∧
        ¬(get_adj_angle ataOct 0 (0, 0) c' = 45 ∧
          get_dist sqtId (0, 0) c' < 2) :=
  hull_scan_lex_minimal ataOct sqtId 0 (0, 0) [(1, 1), (2, 2)] 45 2 (1, 1)
    (by with_unfolding_all rfl)

/-- Counterexample to C4 as stated.  The two candidates `(1,1)` and `(2,2)`
require the same adjustment angle 45 from `(0,0)` at heading 0, and `(1,1)`
is strictly nearer; the claim says the farther candidate `(2,2)` is selected,
but the scan selects the nearer `(1,1)`. -/
theorem hull_tiebreak_farther_refuted :
    get_adj_angle ataOct 0 (0, 0) (1, 1) = get_adj_angle ataOct 0 (0, 0) (2, 2) ∧
    get_dist sqtId (0, 0) (1, 1) < get_dist sqtId (0, 0) (2, 2) ∧
    hullScan ataOct sqtId 0 (0, 0) [(1, 1), (2, 2)] (360, none, 0) =
      (45, some (1, 1), 2) ∧
    ((1, 1) : Point) ≠ (2, 2) :=
  ⟨by with_unfolding_all rfl,
   by with_unfolding_all exact of_decide_eq_true rfl,
   by with_unfolding_all rfl,
   by with_unfolding_all exact of_decide_eq_true rfl⟩

theorem concWalk_eq_mod {sqt : ℚ → ℚ} {hull : List Point} :
    ∀ (ps : List Point) (dict : List (Point × ℚ)) (l : Int) (r : Nat),
      (2 ≤ hull.length → r ≤ hull.length - 2) →
      concWalkW sqt (hull.length - 1) hull ps (dict, l, r) =
        concWalk sqt hull ps (dict, l, r) := by
  intro ps
  induction ps with
  | nil =>
    intro dict l r _
    rw [concWalkW, concWalk]
  | cons pt rest ih =>
    intro dict l r hinv
    rw [concWalkW, concWalk]
    split
    next hmem =>
      have hstep : (r + 1) % (hull.length - 1) =
          if r + 1 = hull.length - 1 then 0 else r + 1 := by
        rcases Nat.lt_or_ge hull.length 2 with hlen | hlen
        · have h0 : hull.length - 1 = 0 := by omega
          rw [h0, if_neg (by omega), Nat.mod_zero]
        · have hr : r ≤ hull.length - 2 := hinv hlen
          by_cases he : r + 1 = hull.length - 1
          · rw [if_pos he, he, Nat.mod_self]
          · rw [if_neg he, Nat.mod_eq_of_lt (by omega)]
      rw [hstep]
      refine ih _ _ _ ?_
      intro hlen
      have hr : r ≤ hull.length - 2 := hinv hlen
      split <;> omega
    next hmem =>
      cases hp : pyGet hull l with
      | none => rfl
      | some lb =>
        cases hq : hull.get? r with
        | none => rfl
        | some rb => exact ih _ _ _ hinv

/-- Amended C5 (counterexample: `concavity_wrap_mod_hull_length_refuted`).
`concavity` assigns 0 to every hull vertex and to every non-hull point the
minimum of its distances to the two bridge hull vertices, both cursors
advancing at each hull vertex — but the right cursor is reset to 0 upon
reaching `len(hull) - 1`, i.e. it wraps modulo `len(hull) - 1` (never
pointing at the last hull vertex), not modulo the hull length:
`concavity` coincides with the cursor walk that advances the right cursor by
`(right + 1) % (len(hull) - 1)` on every input. -/
theorem concavity_wrap_mod_pred_hull_length (ata : ℚ → ℚ → ℚ) (sqt : ℚ → ℚ)
    (hf : Nat) (p : Polygon) :
    concavityW (fun n => n - 1) ata sqt hf p = concavity ata sqt hf p := by
  rw [concavityW, concavity]
  cases hh : convex_hull ata sqt hf p with
  | error e => rfl
  | ok hull =>
    have hw := @concWalk_eq_mod sqt hull p [] (-1) 0 (fun _ => Nat.zero_le _)
    simp only [hw]

/-- Counterexample to C5 as stated: on the polygon `Pn2` the bridge walk with
the right cursor wrapping modulo the hull length (as the claim says) produces
a different concavity result than `concavity` — the code resets the cursor
already at `len(hull) - 1`, so after the third hull vertex the right bridge
is `hull[0]`, not `hull[3]`. -/
theorem concavity_wrap_mod_hull_length_refuted :
    concavityW (fun n => n) ataOct sqtId 20 Pn2 ≠ concavity ataOct sqtId 20 Pn2 := by
  with_unfolding_all exact of_decide_eq_true rfl

theorem dictInsert_mem {kv : Point × ℚ} {k : Point} {v : ℚ} :
    ∀ {d : List (Point × ℚ)}, kv ∈ dictInsert k v d → kv = (k, v) ∨ kv ∈ d := by
  intro d
  induction d with
  | nil =>
    intro h
    rw [dictInsert] at h
    exact Or.inl (List.mem_singleton.mp h)
  | cons kv' rest ih =>
    intro h
    obtain ⟨a, b⟩ := kv'
    rw [dictInsert] at h
    by_cases hk : a = k
    · rw [if_pos hk] at h
      rcases List.mem_cons.mp h with rfl | h
      · exact Or.inl rfl
      · exact Or.inr (List.mem_cons_of_mem _ h)
    · rw [if_neg hk] at h
      rcases List.mem_cons.mp h with rfl | h
      · exact Or.inr (List.mem_cons_self _ _)
      · rcases ih h with h' | h'
        · exact Or.inl h'
        · exact Or.inr (List.mem_cons_of_mem _ h')

theorem dictGet_isSome_dictInsert (k k' : Point) (v : ℚ)
    (d : List (Point × ℚ)) (h : (dictGet k d).isSome) :
    (dictGet k (dictInsert k' v d)).isSome := by
  by_cases hk : k = k'
  · subst hk
    rw [dictGet_dictInsert_self]
    rfl
  · rw [dictGet_dictInsert_ne k' k v d hk]
    exact h

theorem concWalk_all_hull {sqt : ℚ → ℚ} {hull : List Point} :
    ∀ (ps : List Point) (dict : List (Point × ℚ)) (l : Int) (r : Nat),
      (∀ pt ∈ ps, pt ∈ hull) → (∀ kv ∈ dict, kv.2 = (0 : ℚ)) →
      ∃ d' l' r', concWalk sqt hull ps (dict, l, r) = .ok (d', l', r') ∧
        (∀ kv ∈ d', kv.2 = 0) ∧
        (∀ pt ∈ ps, (dictGet pt d').isSome) ∧
        (∀ k, (dictGet k dict).isSome → (dictGet k d').isSome) := by
  intro ps
  induction ps with
  | nil =>
    intro dict l r _ hz
    exact ⟨dict, l, r, by rw [concWalk], hz, by simp, fun k h => h⟩
  | cons pt rest ih =>
    intro dict l r hmem hz
    have hpt : pt ∈ hull := hmem pt (List.mem_cons_self _ _)
    have hz' : ∀ kv ∈ dictInsert pt 0 dict, kv.2 = (0 : ℚ) := by
      intro kv hkv
      rcases dictInsert_mem hkv with rfl | hkv
      · rfl
      · exact hz kv hkv
    obtain ⟨d', l', r', heq, hz'', hkeys, hpres⟩ :=
      ih (dictInsert pt 0 dict) (l + 1)
        (if r + 1 = hull.length - 1 then 0 else r + 1)
        (fun q hq => hmem q (List.mem_cons_of_mem _ hq)) hz'
    refine ⟨d', l', r', ?_, hz'', ?_, ?_⟩
    · rw [concWalk, if_pos hpt]
      exact heq
    · intro q hq
      rcases List.mem_cons.mp hq with rfl | hq
      · exact hpres q (by rw [dictGet_dictInsert_self]; rfl)
      · exact hkeys q hq
    · intro k hk
      exact hpres k (dictGet_isSome_dictInsert k pt 0 dict hk)

theorem foldl_max_const {a : ℚ} :
    ∀ {l : List ℚ}, (∀ v ∈ l, v = a) → l.foldl max a = a := by
  intro l
  induction l with
  | nil => intro _; rfl
  | cons h rest ih =>
    intro hz
    rw [List.foldl_cons, hz h (List.mem_cons_self _ _), max_self]
    exact ih fun v hv => hz v (List.mem_cons_of_mem _ hv)

theorem listMax_all_zero {l : List ℚ} (hne : l ≠ []) (hz : ∀ v ∈ l, v = 0) :
    listMax l = some 0 := by
  match l, hne with
  | v :: rest, _ =>
    rw [listMax]
    rw [hz v (List.mem_cons_self _ _)]
    rw [foldl_max_const fun w hw => hz w (List.mem_cons_of_mem _ hw)]

theorem notchScan_some_acc {dict : List (Point × ℚ)} {mc : ℚ} :
    ∀ (ps : List Point) (x : Point), (∀ pt ∈ ps, (dictGet pt dict).isSome) →
      ∃ r0, notchScan dict mc ps (some x) = .ok (some r0) := by
  intro ps
  induction ps with
  | nil => intro x _; exact ⟨x, by rw [notchScan]⟩
  | cons pt rest ih =>
    intro x hkeys
    obtain ⟨v, hv⟩ := Option.isSome_iff_exists.mp
      (hkeys pt (List.mem_cons_self _ _))
    rw [notchScan, hv]
    show ∃ r0, notchScan dict mc rest (if v = mc then some pt else some x) =
      .ok (some r0)
    by_cases hvm : v = mc
    · rw [if_pos hvm]
      exact ih pt fun q hq => hkeys q (List.mem_cons_of_mem _ hq)
    · rw [if_neg hvm]
      exact ih x fun q hq => hkeys q (List.mem_cons_of_mem _ hq)

/-- C8. If every vertex of `p` lies on its convex hull (as for a convex
polygon), every concavity score is 0, so for any tolerance greater than 0 and
any positive recursion budget, `ACD(p, tau)` returns exactly `[p]`
unchanged. -/
theorem acd_convex_identity (ata : ℚ → ℚ → ℚ) (sqt : ℚ → ℚ) (rf hf : Nat)
    (p : Polygon) (tau : ℚ) (hull : List Point)
    (hh : convex_hull ata sqt hf p = .ok hull)
    (hconv : ∀ pt ∈ p, pt ∈ hull) (htau : 0 < tau) (hrf : 1 ≤ rf) :
    ACD ata sqt rf hf p tau = .ok [p] := by
  obtain ⟨x, rest, rfl⟩ : ∃ x rest, p = x :: rest := by
    cases p with
    | nil =>
      rw [convex_hull] at hh
      exact absurd hh (by simp [argminX])
    | cons x rest => exact ⟨x, rest, rfl⟩
  obtain ⟨d', l', r', hwalk, hzero, hkeys, _⟩ :=
    @concWalk_all_hull sqt hull (x :: rest) [] (-1) 0 hconv (by simp)
  have hzget : ∀ pt ∈ x :: rest, dictGet pt d' = some 0 := by
    intro pt hm
    obtain ⟨v, hv⟩ := Option.isSome_iff_exists.mp (hkeys pt hm)
    have hv0 : v = 0 := hzero (pt, v) (dictGet_mem hv)
    rw [hv, hv0]
  have hdne : d'.map Prod.snd ≠ [] := by
    intro hcon
    have hx := hzget x (List.mem_cons_self _ _)
    rw [List.map_eq_nil_iff] at hcon
    rw [hcon] at hx
    exact absurd hx (by simp [dictGet])
  have hmax : listMax (d'.map Prod.snd) = some 0 := by
    refine listMax_all_zero hdne ?_
    intro v hv
    obtain ⟨kv, hkv, rfl⟩ := List.mem_map.mp hv
    exact hzero kv hkv
  obtain ⟨r0, hscan⟩ : ∃ r0, notchScan d' 0 (x :: rest) none = .ok (some r0) := by
    rw [notchScan, hzget x (List.mem_cons_self _ _)]
    show ∃ r0, notchScan d' 0 rest (if (0 : ℚ) = 0 then some x else none) =
      .ok (some r0)
    rw [if_pos rfl]
    refine notchScan_some_acc rest x ?_
    intro q hq
    rw [hzget q (List.mem_cons_of_mem _ hq)]
    rfl
  have hconc : concavity ata sqt hf (x :: rest) = .ok (r0, d') := by
    rw [concavity]
    simp only [hh, hwalk, hmax, hscan]
  have hget : dictGet r0 d' = some 0 := notchScan_ok_some hscan (by simp)
  cases rf with
  | zero => exact absurd hrf (by simp)
  | succ n =>
    rw [ACD]
    simp only [hconc, hget, if_pos htau]

/-- Witness for C8 at the concrete perfect square of the specification: the
decomposition returns the square unchanged. -/
theorem acd_convex_identity_witness :
    ACD ataOct sqtId 3 20 Psq 1 = .ok [Psq] :=
  acd_convex_identity ataOct sqtId 3 20 Psq 1 [(0, 0), (0, 4), (4, 4), (4, 0)]
    (by with_unfolding_all rfl)
    (by with_unfolding_all exact of_decide_eq_true rfl)
    (by norm_num) (by norm_num)
